import Mathlib

/-!
Verification development for the FromBitToQubit quantum-simulation backend.

The repository contains three Flask backends:
* `quantum_backend.py` delegates the actual statevector evolution to the Qiskit
  library (`Statevector.from_int(0, 2**n).evolve(circuit)`), which is not part of
  the repository; its analytics code (probability list, per-qubit marginals,
  lines 80-100) is embedded below from the source.
* `quantum_backend_simple.py` contains the fully self-contained fallback
  `simulate_simple_circuit` (pattern-matched, hard-coded states) and the route
  that classifies `qiskit_code` strings; both are embedded below from the source.
* `quantum_backend_docker.py` repeats the two paths above.

Wherever behaviour is decided by code missing from the repository (the Qiskit
statevector engine, circuit validation, `circuit.depth()`/`circuit.size()`), the
corresponding definition is modelled from the specification and carries a doc
comment starting with `Modelled from the spec:`.
-/

noncomputable section

open Complex Finset

/-- A 2x2 complex matrix, the action of a single-qubit gate on an amplitude
pair, per the Gate Catalog of the spec. -/
structure Mat2 where
  a : ℂ
  b : ℂ
  c : ℂ
  d : ℂ

/-- Columns of the matrix are orthonormal, i.e. `Uᴴ * U = 1`. -/
def Mat2.IsUnitary (U : Mat2) : Prop :=
  (starRingEnd ℂ) U.a * U.a + (starRingEnd ℂ) U.c * U.c = 1 ∧
  (starRingEnd ℂ) U.b * U.b + (starRingEnd ℂ) U.d * U.d = 1 ∧
  (starRingEnd ℂ) U.a * U.b + (starRingEnd ℂ) U.c * U.d = 0

/-- The normalized Hadamard matrix, `circ.h(q)` in the source examples. -/
def Hmat : Mat2 :=
  ⟨((1 / Real.sqrt 2 : ℝ) : ℂ), ((1 / Real.sqrt 2 : ℝ) : ℂ),
   ((1 / Real.sqrt 2 : ℝ) : ℂ), (-(1 / Real.sqrt 2 : ℝ) : ℂ)⟩

/-- The Pauli X matrix, `circ.x(q)` / the target action of `circ.cx(c, t)`. -/
def Xmat : Mat2 := ⟨0, 1, 1, 0⟩

/-- The Pauli Y matrix. -/
def Ymat : Mat2 := ⟨0, -Complex.I, Complex.I, 0⟩

/-- The Pauli Z matrix. -/
def Zmat : Mat2 := ⟨1, 0, 0, -1⟩

/-- Modelled from the spec: a gate operation of the Gate Catalog (single-qubit
unitary, controlled single-qubit unitary, controlled-phase, SWAP).  The
repository builds these through the Qiskit `QuantumCircuit` API, which is not
part of the repository. -/
inductive Op where
  | single (U : Mat2) (q : ℕ)
  | controlled (U : Mat2) (c t : ℕ)
  | cphase (θ : ℝ) (c t : ℕ)
  | swap (a b : ℕ)

/-- Modelled from the spec: a circuit is a declared qubit count together with an
ordered list of gate operations. -/
structure Circuit where
  n : ℕ
  ops : List Op

/-- Exchange of bits `a` and `b` of the basis index `k`, used by SWAP. -/
def swapBits (a b k : ℕ) : ℕ :=
  if k.testBit a = k.testBit b then k else k ^^^ (2 ^ a ^^^ 2 ^ b)

/-- Modelled from the spec: the Gate Catalog action of one operation on the
amplitude vector.  Bit `q` of the basis index is the value of qubit `q`
(least-significant bit = qubit 0), matching the marginal code of
`quantum_backend.py` lines 89-94. -/
def applyOp (ψ : ℕ → ℂ) : Op → (ℕ → ℂ)
  | .single U q => fun k =>
      if k.testBit q then U.c * ψ (k ^^^ 2 ^ q) + U.d * ψ k
      else U.a * ψ k + U.b * ψ (k ^^^ 2 ^ q)
  | .controlled U c t => fun k =>
      if k.testBit c then
        if k.testBit t then U.c * ψ (k ^^^ 2 ^ t) + U.d * ψ k
        else U.a * ψ k + U.b * ψ (k ^^^ 2 ^ t)
      else ψ k
  | .cphase θ c t => fun k =>
      if k.testBit c ∧ k.testBit t then Complex.exp (θ * Complex.I) * ψ k else ψ k
  | .swap a b => fun k => ψ (swapBits a b k)

/-- The conventional ground state `|0…0⟩`: amplitude `(1, 0)` at index `0` and
`(0, 0)` elsewhere; `Statevector.from_int(0, 2**num_qubits)` in the source. -/
def groundState (_n : ℕ) : ℕ → ℂ := fun k => if k = 0 then 1 else 0

/-- Modelled from the spec: the Statevector Engine applies each operation of the
circuit in sequence to the ground state (`initial_state.evolve(circuit)` in the
source delegates this to the Qiskit library, which is not in the repository). -/
def simulate (c : Circuit) : ℕ → ℂ :=
  c.ops.foldl applyOp (groundState c.n)

/-- The probability list computed by `quantum_backend.py` line 81:
`[abs(amplitude)**2 for amplitude in final_state.data]`, one entry per basis
state `0 .. 2^n - 1`. -/
def probsList (n : ℕ) (ψ : ℕ → ℂ) : List ℝ :=
  (List.range (2 ^ n)).map fun k => Complex.normSq (ψ k)

/-- The accumulated `prob_0` of `quantum_backend.py` lines 86-94: the sum of
`probabilities[state_idx]` over the indices with `(state_idx >> qubit_idx) & 1 == 0`. -/
def prob0 (n : ℕ) (probs : ℕ → ℝ) (q : ℕ) : ℝ :=
  ∑ k ∈ Finset.range (2 ^ n), if (k >>> q) &&& 1 = 0 then probs k else 0

/-- The accumulated `prob_1` of `quantum_backend.py` lines 86-94: the remaining
indices, those with `(state_idx >> qubit_idx) & 1 != 0`. -/
def prob1 (n : ℕ) (probs : ℕ → ℝ) (q : ℕ) : ℝ :=
  ∑ k ∈ Finset.range (2 ^ n), if (k >>> q) &&& 1 = 0 then 0 else probs k

/-- One entry of the `marginal_probabilities` output list of
`quantum_backend.py` lines 96-100. -/
structure MarginalEntry where
  qubit : ℕ
  prob_0 : ℝ
  prob_1 : ℝ

/-- The full `marginal_probabilities` list of `quantum_backend.py` lines 84-100. -/
def marginalList (n : ℕ) (probs : ℕ → ℝ) : List MarginalEntry :=
  (List.range n).map fun q => ⟨q, prob0 n probs q, prob1 n probs q⟩

/-- The response shape of `quantum_backend_simple.py` lines 83-91. -/
structure SimResult where
  success : Bool
  statevector : List (ℝ × ℝ)
  num_qubits : ℕ
  probabilities : List ℝ
  marginal_probabilities : List MarginalEntry
  circuit_depth : ℕ
  circuit_size : ℕ

/-- `simulate_simple_circuit` of `quantum_backend_simple.py` lines 11-91.  Every
branch overwrites the `num_qubits` parameter (Python default 2) with a constant,
the statevector and marginals are hard-coded per pattern, the probabilities are
`sv[0]**2 + sv[1]**2` per statevector entry (line 81), and `circuit_depth` and
`circuit_size` are the constants 2 and 2 (lines 89-90). -/
def simulate_simple_circuit (circuit_type : String) (num_qubits : ℕ) : SimResult :=
  let r2 : ℝ := 1 / Real.sqrt 2
  let branch : ℕ × List (ℝ × ℝ) × List MarginalEntry :=
    if circuit_type = "bell_state" then
      (2, [(r2, 0), (0, 0), (0, 0), (r2, 0)],
       [⟨0, 0.5, 0.5⟩, ⟨1, 0.5, 0.5⟩])
    else if circuit_type = "ghz_state" then
      (3, [(r2, 0), (0, 0), (0, 0), (0, 0), (0, 0), (0, 0), (0, 0), (r2, 0)],
       [⟨0, 0.5, 0.5⟩, ⟨1, 0.5, 0.5⟩, ⟨2, 0.5, 0.5⟩])
    else if circuit_type = "superposition" then
      (1, [(r2, 0), (r2, 0)], [⟨0, 0.5, 0.5⟩])
    else if circuit_type = "x_gate" then
      (1, [(0, 0), (1, 0)], [⟨0, 0.0, 1.0⟩])
    else
      (2, ((1 : ℝ), (0 : ℝ)) :: List.replicate (2 ^ 2 - 1) ((0 : ℝ), (0 : ℝ)),
       (List.range 2).map fun i => ⟨i, 1.0, 0.0⟩)
  { success := true
    statevector := branch.2.1
    num_qubits := branch.1
    probabilities := branch.2.1.map fun sv => sv.1 ^ 2 + sv.2 ^ 2
    marginal_probabilities := branch.2.2
    circuit_depth := 2
    circuit_size := 2 }

/-- The Python substring test `pat in code`, on strings embedded as `List Char`:
`pat` occurs contiguously inside `code`. -/
def inStr (pat code : List Char) : Bool := decide (pat <:+: code)

/-- The GHZ pattern of `quantum_backend_simple.py` line 110 on the lower-cased
request string. -/
def patGhz (code : List Char) : Bool :=
  inStr "ghz".toList code ||
    (inStr "quantumcircuit(3)".toList code && inStr "cx(0, 2)".toList code)

/-- The Bell pattern of `quantum_backend_simple.py` line 112. -/
def patBell (code : List Char) : Bool :=
  inStr "bell".toList code ||
    (inStr "quantumcircuit(2)".toList code && inStr "h(0)".toList code &&
      inStr "cx(0, 1)".toList code)

/-- The superposition pattern of `quantum_backend_simple.py` line 114. -/
def patSup (code : List Char) : Bool :=
  inStr "h(0)".toList code && inStr "quantumcircuit(1)".toList code

/-- The bit-flip pattern of `quantum_backend_simple.py` line 116. -/
def patX (code : List Char) : Bool := inStr "x(0)".toList code

/-- The pattern matching of the `/simulate` route of `quantum_backend_simple.py`
lines 107-119, applied to the lower-cased request string (Python strings are
embedded as `List Char`, Python substring tests as `inStr`). -/
def classify (qiskit_code : List Char) : String :=
  let code := qiskit_code.map Char.toLower
  if patGhz code then "ghz_state"
  else if patBell code then "bell_state"
  else if patSup code then "superposition"
  else if patX code then "x_gate"
  else "default"

/-- The `/simulate` route of `quantum_backend_simple.py` lines 110-119: dispatch
on the classified pattern (the Python call sites leave the `num_qubits`
parameter at its default 2). -/
def simulate_route (qiskit_code : List Char) : SimResult :=
  simulate_simple_circuit (classify qiskit_code) 2

/-- The qubit indices an operation references. -/
def Op.touches : Op → List ℕ
  | .single _ q => [q]
  | .controlled _ c t => [c, t]
  | .cphase _ c t => [c, t]
  | .swap a b => [a, b]

/-- All referenced qubit indices are in range and control and target differ for
controlled gates — the circuit invariant of the spec data model. -/
def Op.Valid (n : ℕ) : Op → Prop
  | .single _ q => q < n
  | .controlled _ c t => c < n ∧ t < n ∧ c ≠ t
  | .cphase _ c t => c < n ∧ t < n ∧ c ≠ t
  | .swap a b => a < n ∧ b < n

/-- Single-qubit matrices carried by the operation are unitary (automatic for
the named gates of the catalog). -/
def Op.UnitaryOK : Op → Prop
  | .single U _ => U.IsUnitary
  | .controlled U _ _ => U.IsUnitary
  | .cphase _ _ _ => True
  | .swap _ _ => True

/-- A circuit all of whose operations are valid and carry unitary matrices. -/
def Circuit.WellFormed (c : Circuit) : Prop :=
  ∀ op ∈ c.ops, op.Valid c.n ∧ op.UnitaryOK

/-- Modelled from the spec: the constraint kinds a validation failure can name
(the repository has no validation layer of its own — `quantum_backend.py` leaves
ill-formed circuits to exceptions raised inside the Qiskit library, which is not
in the repository). -/
inductive Constraint where
  | indexOutOfRange
  | controlEqualsTarget
  | qubitCountOutOfBounds
  | opListTooLong

/-- Modelled from the spec: a validation failure reports which operation (when
one is at fault) and which constraint was violated. -/
structure ValidationFailure where
  opIndex : Option ℕ
  constraint : Constraint

/-- Modelled from the spec: the first constraint one operation violates, if any
(index out of range, or control equals target for controlled gates). -/
def Op.firstViolation (n : ℕ) : Op → Option Constraint
  | .single _ q => if n ≤ q then some .indexOutOfRange else none
  | .controlled _ c t =>
      if n ≤ c ∨ n ≤ t then some .indexOutOfRange
      else if c = t then some .controlEqualsTarget else none
  | .cphase _ c t =>
      if n ≤ c ∨ n ≤ t then some .indexOutOfRange
      else if c = t then some .controlEqualsTarget else none
  | .swap a b => if n ≤ a ∨ n ≤ b then some .indexOutOfRange else none

/-- Modelled from the spec: scan the operation list for the first operation
violating a constraint, reporting its position. -/
def findViolation (n : ℕ) : List Op → ℕ → Option ValidationFailure
  | [], _ => none
  | op :: rest, i =>
      match op.firstViolation n with
      | some k => some ⟨some i, k⟩
      | none => findViolation n rest (i + 1)

/-- Modelled from the spec: `validate(n, operations)` of the Circuit Model —
qubit count within `[1, maxQubits]`, operation list not longer than `maxOps`,
every operation valid; returns the validated circuit or a failure naming the
violated constraint. -/
def validate (maxQubits maxOps n : ℕ) (ops : List Op) : Except ValidationFailure Circuit :=
  if n = 0 ∨ maxQubits < n then .error ⟨none, .qubitCountOutOfBounds⟩
  else if maxOps < ops.length then .error ⟨none, .opListTooLong⟩
  else
    match findViolation n ops 0 with
    | some f => .error f
    | none => .ok ⟨n, ops⟩

/-- Modelled from the spec: the validate-then-simulate pipeline — the statevector
is allocated and the engine is run only on a circuit that passed validation; a
rejected circuit produces only the failure value. -/
def runSimulation (maxQubits maxOps n : ℕ) (ops : List Op) :
    Except ValidationFailure (List ℝ) :=
  match validate maxQubits maxOps n ops with
  | .error e => .error e
  | .ok c => .ok (probsList c.n (simulate c))

/-- Modelled from the spec: per-qubit depth tracking for one operation — a
k-qubit operation is scheduled at the maximum current depth among its qubits
plus one, and that becomes the new depth of every qubit it touches.
(`circuit.depth()` of `quantum_backend.py` line 108 is a Qiskit method, not in
the repository.) -/
def depthUpdate (d : ℕ → ℕ) (op : Op) : ℕ → ℕ :=
  let m := (op.touches.map d).foldl max 0 + 1
  fun q => if q ∈ op.touches then m else d q

/-- Modelled from the spec: the per-qubit depths after scheduling all operations
in order. -/
def depthMap (ops : List Op) : ℕ → ℕ :=
  ops.foldl depthUpdate fun _ => 0

/-- Modelled from the spec: circuit depth — the maximum per-qubit depth, i.e.
the length of the longest chain of operations sharing qubits. -/
def circuitDepth (c : Circuit) : ℕ :=
  ((List.range c.n).map (depthMap c.ops)).foldl max 0

/-- Modelled from the spec: circuit size — the total operation count
(`circuit.size()` of `quantum_backend.py` line 109 is a Qiskit method, not in
the repository). -/
def circuitSize (c : Circuit) : ℕ := c.ops.length

/-- The Bell circuit of the repository examples: `QuantumCircuit(2)`, `h(0)`,
`cx(0, 1)`. -/
def bellC : Circuit := ⟨2, [Op.single Hmat 0, Op.controlled Xmat 0 1]⟩

/-- The GHZ circuit of the repository examples: `QuantumCircuit(3)`, `h(0)`,
`cx(0, 1)`, `cx(0, 2)`. -/
def ghzC : Circuit := ⟨3, [Op.single Hmat 0, Op.controlled Xmat 0 1, Op.controlled Xmat 0 2]⟩

/-- Depth example of the spec: two single-qubit gates on distinct qubits
followed by one two-qubit gate touching both. -/
def depthExampleC : Circuit := ⟨2, [Op.single Hmat 0, Op.single Xmat 1, Op.controlled Xmat 0 1]⟩

/-- The 2-qubit circuit consisting of a single Hadamard on qubit 1, used as the
circuit a `default`-classified request can describe. -/
def h1C : Circuit := ⟨2, [Op.single Hmat 1]⟩

/-- A concrete probability assignment (all mass on basis state 0) used to
instantiate hypotheses of marginal theorems. -/
def pointMass : ℕ → ℝ := fun k => if k = 0 then 1 else 0

/-- A concrete request string that matches none of the classifier patterns but
describes the 2-qubit circuit `h1C` (`QuantumCircuit(2)` with `h(1)`). -/
def unmatchedCode : List Char := "circ = quantumcircuit(2)\ncirc.h(1)".toList

/-- The sum of squared amplitude magnitudes over all `2^n` basis states — the
statevector norm invariant of the spec data model. -/
def sumNormSq (n : ℕ) (ψ : ℕ → ℂ) : ℝ :=
  ∑ k ∈ Finset.range (2 ^ n), Complex.normSq (ψ k)

/-- The operation references a qubit index greater than or equal to the declared
qubit count. -/
def Op.RefsOutOfRange (n : ℕ) (op : Op) : Prop := ∃ q ∈ op.touches, n ≤ q

/-- The operation is a controlled gate whose control index equals its target
index. -/
def Op.CtrlEqTgt : Op → Prop
  | .single _ _ => False
  | .controlled _ c t => c = t
  | .cphase _ c t => c = t
  | .swap _ _ => False

/-! ## Helper lemmas -/

/-- The square of `1/sqrt 2` is `1/2`. -/
lemma r2_mul_r2 : (1 / Real.sqrt 2) * (1 / Real.sqrt 2) = 1 / 2 := by
  rw [div_mul_div_comm, one_mul, Real.mul_self_sqrt] <;> norm_num

/-- The square of `1/sqrt 2` is `1/2`, power form. -/
lemma r2_sq : (1 / Real.sqrt 2 : ℝ) ^ 2 = 1 / 2 := by
  rw [sq, r2_mul_r2]

/-- A unitary 2x2 matrix preserves the summed squared magnitude of an amplitude
pair. -/
lemma unitary_pair (U : Mat2) (hU : U.IsUnitary) (x y : ℂ) :
    Complex.normSq (U.a * x + U.b * y) + Complex.normSq (U.c * x + U.d * y)
      = Complex.normSq x + Complex.normSq y := by
  obtain ⟨h1, h2, h3⟩ := hU
  have h3' := congrArg (starRingEnd ℂ) h3
  simp only [map_add, map_mul, map_zero, Complex.conj_conj] at h3'
  have key : (U.a * x + U.b * y) * (starRingEnd ℂ) (U.a * x + U.b * y)
      + (U.c * x + U.d * y) * (starRingEnd ℂ) (U.c * x + U.d * y)
      = x * (starRingEnd ℂ) x + y * (starRingEnd ℂ) y := by
    simp only [map_add, map_mul]
    linear_combination (x * (starRingEnd ℂ) x) * h1 + (y * (starRingEnd ℂ) y) * h2
      + (y * (starRingEnd ℂ) x) * h3 + (x * (starRingEnd ℂ) y) * h3'
  rw [Complex.mul_conj, Complex.mul_conj, Complex.mul_conj, Complex.mul_conj] at key
  exact_mod_cast key

/-- Flipping bit `q` keeps a basis index inside the `2^n` range when `q < n`. -/
lemma xor_pow_lt {n q k : ℕ} (hq : q < n) (hk : k < 2 ^ n) : k ^^^ 2 ^ q < 2 ^ n :=
  Nat.xor_lt_two_pow hk (Nat.pow_lt_pow_right one_lt_two hq)

/-- Xor with `2^q` flips bit `q`. -/
lemma testBit_xor_pow_self (k q : ℕ) : (k ^^^ 2 ^ q).testBit q = !k.testBit q := by
  simp [Nat.testBit_xor, Nat.testBit_two_pow_self, Bool.xor_comm]

/-- Xor with `2^q` leaves every other bit unchanged. -/
lemma testBit_xor_pow_ne {c q : ℕ} (k : ℕ) (h : c ≠ q) :
    (k ^^^ 2 ^ q).testBit c = k.testBit c := by
  simp [Nat.testBit_xor, Nat.testBit_two_pow_of_ne (Ne.symm h)]

/-- Xor with `2^q` is an involution. -/
lemma xor_pow_cancel (k q : ℕ) : k ^^^ 2 ^ q ^^^ 2 ^ q = k :=
  Nat.xor_cancel_right _ _

/-- A sum over all `2^n` basis indices regrouped over the pairs `(k, k ^^^ 2^q)`
with bit `q` of `k` clear — the index-pair decomposition of the Gate Catalog. -/
lemma sum_pair {n q : ℕ} (hq : q < n) (g : ℕ → ℝ) :
    ∑ k ∈ Finset.range (2 ^ n), g k
      = ∑ k ∈ (Finset.range (2 ^ n)).filter (fun k => k.testBit q = false),
          (g k + g (k ^^^ 2 ^ q)) := by
  rw [Finset.sum_add_distrib]
  rw [← Finset.sum_filter_add_sum_filter_not (Finset.range (2 ^ n))
    (fun k => k.testBit q = false) g]
  congr 1
  refine Finset.sum_nbij' (fun k => k ^^^ 2 ^ q) (fun k => k ^^^ 2 ^ q) ?_ ?_ ?_ ?_ ?_
  · intro a ha
    simp only [Finset.mem_filter, Finset.mem_range] at ha ⊢
    exact ⟨xor_pow_lt hq ha.1, by simp [testBit_xor_pow_self, ha.2]⟩
  · intro a ha
    simp only [Finset.mem_filter, Finset.mem_range] at ha ⊢
    refine ⟨xor_pow_lt hq ha.1, ?_⟩
    simp only [testBit_xor_pow_self]
    revert ha
    cases a.testBit q <;> simp
  · intro a _; exact xor_pow_cancel a q
  · intro a _; exact xor_pow_cancel a q
  · intro a _; simp [xor_pow_cancel]

/-- A single-qubit unitary on a valid target preserves the statevector norm. -/
lemma single_preserves {n q : ℕ} (hq : q < n) (U : Mat2) (hU : U.IsUnitary) (ψ : ℕ → ℂ) :
    sumNormSq n (applyOp ψ (.single U q)) = sumNormSq n ψ := by
  unfold sumNormSq
  rw [sum_pair hq (fun k => Complex.normSq (applyOp ψ (.single U q) k)),
      sum_pair hq (fun k => Complex.normSq (ψ k))]
  refine Finset.sum_congr rfl ?_
  intro k hk
  simp only [Finset.mem_filter, Finset.mem_range] at hk
  have hbit : k.testBit q = false := hk.2
  have hbit' : (k ^^^ 2 ^ q).testBit q = true := by simp [testBit_xor_pow_self, hbit]
  simp only [applyOp, hbit, hbit', xor_pow_cancel, Bool.false_eq_true, if_false, if_true]
  exact unitary_pair U hU (ψ k) (ψ (k ^^^ 2 ^ q))

/-- A controlled single-qubit unitary with distinct control and target and a
valid target preserves the statevector norm. -/
lemma controlled_preserves {n c t : ℕ} (ht : t < n) (hct : c ≠ t) (U : Mat2)
    (hU : U.IsUnitary) (ψ : ℕ → ℂ) :
    sumNormSq n (applyOp ψ (.controlled U c t)) = sumNormSq n ψ := by
  unfold sumNormSq
  rw [sum_pair ht (fun k => Complex.normSq (applyOp ψ (.controlled U c t) k)),
      sum_pair ht (fun k => Complex.normSq (ψ k))]
  refine Finset.sum_congr rfl ?_
  intro k hk
  simp only [Finset.mem_filter, Finset.mem_range] at hk
  have hbit : k.testBit t = false := hk.2
  have hbit' : (k ^^^ 2 ^ t).testBit t = true := by simp [testBit_xor_pow_self, hbit]
  have hc : (k ^^^ 2 ^ t).testBit c = k.testBit c := testBit_xor_pow_ne k hct
  cases hcb : k.testBit c with
  | false =>
      simp only [applyOp, hbit, hbit', hc, hcb, Bool.false_eq_true, if_false]
  | true =>
      simp only [applyOp, hbit, hbit', hc, hcb, xor_pow_cancel, Bool.false_eq_true,
        if_false, if_true]
      exact unitary_pair U hU (ψ k) (ψ (k ^^^ 2 ^ t))

/-- A controlled-phase gate multiplies amplitudes by a unit-modulus factor and
so preserves the statevector norm. -/
lemma cphase_preserves {n : ℕ} (θ : ℝ) (c t : ℕ) (ψ : ℕ → ℂ) :
    sumNormSq n (applyOp ψ (.cphase θ c t)) = sumNormSq n ψ := by
  unfold sumNormSq
  refine Finset.sum_congr rfl ?_
  intro k _
  simp only [applyOp]
  split
  · rw [Complex.normSq_mul]
    have h1 : Complex.normSq (Complex.exp (θ * Complex.I)) = 1 := by
      rw [Complex.normSq_eq_abs]
      rw [show ((θ : ℂ) * Complex.I) = ((θ : ℝ) : ℂ) * Complex.I from rfl]
      rw [Complex.abs_exp]
      simp
    rw [h1, one_mul]
  · rfl

/-- Exchanging bits `a` and `b` is an involution on basis indices. -/
lemma swapBits_invol (a b k : ℕ) : swapBits a b (swapBits a b k) = k := by
  unfold swapBits
  by_cases h : k.testBit a = k.testBit b
  · simp [h]
  · have hab : a ≠ b := fun he => h (by rw [he])
    rw [if_neg h]
    have hta : (k ^^^ (2 ^ a ^^^ 2 ^ b)).testBit a = !k.testBit a := by
      simp [Nat.testBit_xor, Nat.testBit_two_pow_self, Nat.testBit_two_pow_of_ne hab,
        Nat.testBit_two_pow_of_ne (Ne.symm hab), Bool.xor_comm]
    have htb : (k ^^^ (2 ^ a ^^^ 2 ^ b)).testBit b = !k.testBit b := by
      simp [Nat.testBit_xor, Nat.testBit_two_pow_self, Nat.testBit_two_pow_of_ne hab,
        Nat.testBit_two_pow_of_ne (Ne.symm hab), Bool.xor_comm]
    have h2 : ¬((k ^^^ (2 ^ a ^^^ 2 ^ b)).testBit a = (k ^^^ (2 ^ a ^^^ 2 ^ b)).testBit b) := by
      rw [hta, htb]
      revert h
      cases k.testBit a <;> cases k.testBit b <;> simp
    rw [if_neg h2, Nat.xor_cancel_right]

/-- Exchanging in-range bits keeps a basis index inside the `2^n` range. -/
lemma swapBits_lt {n a b k : ℕ} (ha : a < n) (hb : b < n) (hk : k < 2 ^ n) :
    swapBits a b k < 2 ^ n := by
  unfold swapBits
  split
  · exact hk
  · exact Nat.xor_lt_two_pow hk
      (Nat.xor_lt_two_pow (Nat.pow_lt_pow_right one_lt_two ha)
        (Nat.pow_lt_pow_right one_lt_two hb))

/-- A SWAP of two in-range qubits preserves the statevector norm. -/
lemma swap_preserves {n a b : ℕ} (ha : a < n) (hb : b < n) (ψ : ℕ → ℂ) :
    sumNormSq n (applyOp ψ (.swap a b)) = sumNormSq n ψ := by
  unfold sumNormSq
  refine Finset.sum_nbij' (fun k => swapBits a b k) (fun k => swapBits a b k) ?_ ?_ ?_ ?_ ?_
  · intro k hk
    simp only [Finset.mem_range] at hk ⊢
    exact swapBits_lt ha hb hk
  · intro k hk
    simp only [Finset.mem_range] at hk ⊢
    exact swapBits_lt ha hb hk
  · intro k _; exact swapBits_invol a b k
  · intro k _; exact swapBits_invol a b k
  · intro k _; simp [applyOp]

/-- The ground state has statevector norm 1. -/
lemma ground_sumNormSq (n : ℕ) : sumNormSq n (groundState n) = 1 := by
  unfold sumNormSq groundState
  rw [show (fun k => Complex.normSq (if k = 0 then (1 : ℂ) else 0))
      = fun k => if k = 0 then (1 : ℝ) else 0 from ?_]
  · rw [Finset.sum_ite_eq' (Finset.range (2 ^ n)) 0 (fun _ => (1 : ℝ))]
    simp [Nat.pos_pow_of_pos]
  · funext k
    split <;> simp

/-- Folding a list of valid, unitary operations over any statevector preserves
its norm. -/
lemma foldl_preserves {n : ℕ} (ops : List Op) :
    ∀ ψ : ℕ → ℂ, (∀ op ∈ ops, op.Valid n ∧ op.UnitaryOK) →
      sumNormSq n (ops.foldl applyOp ψ) = sumNormSq n ψ := by
  induction ops with
  | nil => intro ψ _; rfl
  | cons op rest ih =>
      intro ψ h
      have hop := h op (List.mem_cons_self op rest)
      have hrest : ∀ o ∈ rest, o.Valid n ∧ o.UnitaryOK :=
        fun o ho => h o (List.mem_cons_of_mem op ho)
      rw [List.foldl_cons, ih (applyOp ψ op) hrest]
      cases op with
      | single U q => exact single_preserves hop.1 U hop.2 ψ
      | controlled U c t => exact controlled_preserves hop.1.2.1 hop.1.2.2 U hop.2 ψ
      | cphase θ c t => exact cphase_preserves θ c t ψ
      | swap a b => exact swap_preserves hop.1.1 hop.1.2 ψ

/-- Simulating a well-formed circuit yields a statevector of norm 1 — the spec
invariant that unitary-by-construction evolution preserves normalization. -/
lemma simulate_sumNormSq (c : Circuit) (h : c.WellFormed) :
    sumNormSq c.n (simulate c) = 1 := by
  unfold simulate
  rw [foldl_preserves c.ops (groundState c.n) h, ground_sumNormSq]

/-- The Hadamard matrix is unitary. -/
lemma Hmat_unitary : Hmat.IsUnitary := by
  unfold Mat2.IsUnitary Hmat
  refine ⟨?_, ?_, ?_⟩ <;>
    simp only [map_neg, Complex.conj_ofReal, mul_neg, neg_mul, neg_neg,
      ← Complex.ofReal_mul, r2_mul_r2] <;>
    norm_num

/-- The Pauli X matrix is unitary. -/
lemma Xmat_unitary : Xmat.IsUnitary := by
  unfold Mat2.IsUnitary Xmat
  norm_num

/-- The Bell circuit is well-formed. -/
lemma bellC_wf : bellC.WellFormed := by
  intro op hop
  simp only [bellC, List.mem_cons, List.mem_singleton, List.not_mem_nil, or_false] at hop
  rcases hop with rfl | rfl
  · exact ⟨by norm_num [Op.Valid, bellC], Hmat_unitary⟩
  · exact ⟨by norm_num [Op.Valid, bellC], Xmat_unitary⟩

/-- The GHZ circuit is well-formed. -/
lemma ghzC_wf : ghzC.WellFormed := by
  intro op hop
  simp only [ghzC, List.mem_cons, List.mem_singleton, List.not_mem_nil, or_false] at hop
  rcases hop with rfl | rfl | rfl
  · exact ⟨by norm_num [Op.Valid, ghzC], Hmat_unitary⟩
  · exact ⟨by norm_num [Op.Valid, ghzC], Xmat_unitary⟩
  · exact ⟨by norm_num [Op.Valid, ghzC], Xmat_unitary⟩

/-- The sum of a mapped range list is the corresponding finite sum. -/
lemma list_range_map_sum (m : ℕ) (f : ℕ → ℝ) :
    ((List.range m).map f).sum = ∑ k ∈ Finset.range m, f k := by
  induction m with
  | zero => simp
  | succ m ih =>
      rw [List.range_succ, List.map_append, List.sum_append, Finset.sum_range_succ, ih]
      simp

/-- The sum of the probability list is the statevector norm. -/
lemma probsList_sum (n : ℕ) (ψ : ℕ → ℂ) : (probsList n ψ).sum = sumNormSq n ψ :=
  list_range_map_sum (2 ^ n) fun k => Complex.normSq (ψ k)

/-- The grouping condition `(state_idx >> qubit_idx) & 1 == 0` of the source is
exactly "bit `q` of the basis index is clear". -/
lemma shift_and_one_eq_zero_iff (k q : ℕ) :
    ((k >>> q) &&& 1 = 0) ↔ k.testBit q = false := by
  rw [Nat.and_one_is_mod, Nat.testBit_to_div_mod, Nat.shiftRight_eq_div_pow]
  rcases Nat.mod_two_eq_zero_or_one (k / 2 ^ q) with h | h <;> simp [h]

/-! ## Claim theorems -/

/-- C1: for every simulated (well-formed) circuit the probability list has one
entry per basis state, entry `i` equals the squared magnitude of amplitude `i`,
and the probabilities sum to 1 within tolerance 1e-6; likewise for every branch
of the fallback simulator, whose probabilities are recomputed from its returned
statevector by `sv[0]**2 + sv[1]**2`. -/
theorem C1_probabilities_norm (c : Circuit) (hwf : c.WellFormed) :
    (probsList c.n (simulate c)).length = 2 ^ c.n ∧
    (∀ k, k < 2 ^ c.n →
      (probsList c.n (simulate c))[k]? = some (Complex.normSq (simulate c k))) ∧
    |(probsList c.n (simulate c)).sum - 1| ≤ 1 / 1000000 ∧
    (∀ ct nq,
      (simulate_simple_circuit ct nq).probabilities
          = (simulate_simple_circuit ct nq).statevector.map (fun sv => sv.1 ^ 2 + sv.2 ^ 2) ∧
      (simulate_simple_circuit ct nq).probabilities.length
          = 2 ^ (simulate_simple_circuit ct nq).num_qubits ∧
      |(simulate_simple_circuit ct nq).probabilities.sum - 1| ≤ 1 / 1000000) := by
  refine ⟨by simp [probsList], ?_, ?_, ?_⟩
  · intro k hk
    simp [probsList, List.getElem?_range hk]
  · rw [probsList_sum, simulate_sumNormSq c hwf]
    norm_num
  · intro ct nq
    refine ⟨rfl, ?_⟩
    simp only [simulate_simple_circuit]
    split_ifs <;> norm_num [r2_sq]

/-- Witness for C1 at the Bell circuit. -/
theorem C1_witness :
    bellC.WellFormed ∧ |(probsList bellC.n (simulate bellC)).sum - 1| ≤ 1 / 1000000 :=
  ⟨bellC_wf, (C1_probabilities_norm bellC bellC_wf).2.2.1⟩

/-- C2: the marginal pair of qubit `q` is obtained by summing the basis-state
probabilities grouped by bit `q` of the integer index (least-significant bit =
qubit 0), and for a normalized probability assignment the two components sum
to 1. -/
theorem C2_marginal_grouping (n : ℕ) (p : ℕ → ℝ) (q : ℕ) (hq : q < n)
    (hnorm : ∑ k ∈ Finset.range (2 ^ n), p k = 1) :
    prob0 n p q
        = ∑ k ∈ (Finset.range (2 ^ n)).filter (fun k => k.testBit q = false), p k ∧
    prob1 n p q
        = ∑ k ∈ (Finset.range (2 ^ n)).filter (fun k => k.testBit q = true), p k ∧
    prob0 n p q + prob1 n p q = 1 := by
  have h0 : prob0 n p q
      = ∑ k ∈ (Finset.range (2 ^ n)).filter (fun k => k.testBit q = false), p k := by
    rw [Finset.sum_filter]
    refine Finset.sum_congr rfl ?_
    intro k _
    by_cases h : (k >>> q) &&& 1 = 0
    · rw [if_pos h, if_pos ((shift_and_one_eq_zero_iff k q).1 h)]
    · rw [if_neg h, if_neg (fun hb => h ((shift_and_one_eq_zero_iff k q).2 hb))]
  have h1 : prob1 n p q
      = ∑ k ∈ (Finset.range (2 ^ n)).filter (fun k => k.testBit q = true), p k := by
    rw [Finset.sum_filter]
    refine Finset.sum_congr rfl ?_
    intro k _
    by_cases h : (k >>> q) &&& 1 = 0
    · rw [if_pos h]
      rw [if_neg]
      simp [(shift_and_one_eq_zero_iff k q).1 h]
    · have hbt : k.testBit q = true := by
        cases hb : k.testBit q with
        | false => exact absurd ((shift_and_one_eq_zero_iff k q).2 hb) h
        | true => rfl
      rw [if_neg h, if_pos hbt]
  refine ⟨h0, h1, ?_⟩
  have hsum : prob0 n p q + prob1 n p q = ∑ k ∈ Finset.range (2 ^ n), p k := by
    unfold prob0 prob1
    rw [← Finset.sum_add_distrib]
    refine Finset.sum_congr rfl ?_
    intro k _
    split <;> simp
  rw [hsum, hnorm]

/-- Witness for C2 at a one-qubit point-mass distribution. -/
theorem C2_witness : prob0 1 pointMass 0 + prob1 1 pointMass 0 = 1 :=
  (C2_marginal_grouping 1 pointMass 0 one_pos
    (by simp [pointMass, Finset.sum_range_succ])).2.2

/-- C3: the Bell circuit (H on qubit 0 then CNOT control 0, target 1) yields
probabilities `[0.5, 0, 0, 0.5]` and marginals `0.5/0.5` for both qubits, both
through the modelled engine with the source marginal computation and through the
`bell_state` branch of the fallback simulator. -/
theorem C3_bell_state :
    probsList 2 (simulate bellC) = [1/2, 0, 0, 1/2] ∧
    marginalList 2 (fun k => Complex.normSq (simulate bellC k))
        = [⟨0, 1/2, 1/2⟩, ⟨1, 1/2, 1/2⟩] ∧
    (∀ nq, (simulate_simple_circuit "bell_state" nq).probabilities = [1/2, 0, 0, 1/2] ∧
      (simulate_simple_circuit "bell_state" nq).marginal_probabilities
          = [⟨0, 1/2, 1/2⟩, ⟨1, 1/2, 1/2⟩]) := by
  refine ⟨?_, ?_, ?_⟩
  · simp [probsList, List.range_succ, simulate, bellC, applyOp, groundState, Hmat, Xmat,
      Nat.testBit_to_div_mod, Complex.normSq_ofReal, r2_mul_r2]
  · simp only [marginalList, show List.range 2 = [0, 1] from rfl, List.map_cons,
      List.map_nil, List.cons.injEq, MarginalEntry.mk.injEq, and_true]
    simp [prob0, prob1, Finset.sum_range_succ, simulate, bellC, applyOp, groundState,
      Hmat, Xmat, Nat.testBit_to_div_mod, Complex.normSq_ofReal,
      Nat.shiftRight_eq_div_pow, Nat.and_one_is_mod]
  · intro nq
    constructor
    · simp [simulate_simple_circuit, r2_sq]
    · simp [simulate_simple_circuit]
      norm_num

/-- C4: the GHZ circuit (H on 0, CNOT 0→1, CNOT 0→2) yields probability 0.5 at
basis indices 0 and 7 and 0 elsewhere, with every marginal `0.5/0.5`, both
through the modelled engine and through the `ghz_state` branch of the fallback
simulator. -/
theorem C4_ghz_state :
    probsList 3 (simulate ghzC) = [1/2, 0, 0, 0, 0, 0, 0, 1/2] ∧
    marginalList 3 (fun k => Complex.normSq (simulate ghzC k))
        = [⟨0, 1/2, 1/2⟩, ⟨1, 1/2, 1/2⟩, ⟨2, 1/2, 1/2⟩] ∧
    (∀ nq, (simulate_simple_circuit "ghz_state" nq).probabilities
          = [1/2, 0, 0, 0, 0, 0, 0, 1/2] ∧
      (simulate_simple_circuit "ghz_state" nq).marginal_probabilities
          = [⟨0, 1/2, 1/2⟩, ⟨1, 1/2, 1/2⟩, ⟨2, 1/2, 1/2⟩]) := by
  refine ⟨?_, ?_, ?_⟩
  · simp [probsList, List.range_succ, simulate, ghzC, applyOp, groundState, Hmat, Xmat,
      Nat.testBit_to_div_mod, Complex.normSq_ofReal, r2_mul_r2]
  · simp only [marginalList, show List.range 3 = [0, 1, 2] from rfl, List.map_cons,
      List.map_nil, List.cons.injEq, MarginalEntry.mk.injEq, and_true]
    simp [prob0, prob1, Finset.sum_range_succ, simulate, ghzC, applyOp, groundState,
      Hmat, Xmat, Nat.testBit_to_div_mod, Complex.normSq_ofReal,
      Nat.shiftRight_eq_div_pow, Nat.and_one_is_mod]
  · intro nq
    constructor
    · simp [simulate_simple_circuit, r2_sq]
    · simp [simulate_simple_circuit]
      norm_num

/-- C5 counterexample: the fallback simulator returns `circuit_size = 2` and
`circuit_depth = 2` for the GHZ request, although the GHZ circuit it simulates
(H(0), CX(0,1), CX(0,2) per the repository examples) has 3 operations and a
dependent chain of length 3. -/
theorem C5_counterexample :
    (simulate_simple_circuit "ghz_state" 3).circuit_size = 2 ∧
    (simulate_simple_circuit "ghz_state" 3).circuit_depth = 2 ∧
    circuitSize ghzC = 3 ∧ circuitDepth ghzC = 3 ∧ (2 : ℕ) ≠ 3 := by
  refine ⟨rfl, rfl, by decide, by decide, by decide⟩

/-- C5 (amended): the engine-path metrics modelled from the spec satisfy the
law — size is the operation count and per-qubit scheduling gives depth 2 and
size 3 on the two-single-gates-then-one-two-qubit-gate example — while the
fallback simulator returns the constants depth 2 and size 2 for every input. -/
theorem C5_metrics :
    (∀ c : Circuit, circuitSize c = c.ops.length) ∧
    circuitDepth depthExampleC = 2 ∧ circuitSize depthExampleC = 3 ∧
    (∀ ct nq, (simulate_simple_circuit ct nq).circuit_depth = 2 ∧
      (simulate_simple_circuit ct nq).circuit_size = 2) :=
  ⟨fun _ => rfl, by decide, by decide, fun _ _ => ⟨rfl, rfl⟩⟩

/-- C6 counterexample: the request string `unmatchedCode` (a 2-qubit circuit
with a Hadamard on qubit 1) matches no classifier pattern, yet the fallback
route answers `success = true` with probabilities `[1, 0, 0, 0]`, while the
statevector semantics of the submitted circuit gives `[0.5, 0, 0.5, 0]` — a
silently incorrect successful result. -/
theorem C6_counterexample :
    classify unmatchedCode = "default" ∧
    (simulate_route unmatchedCode).success = true ∧
    (simulate_route unmatchedCode).probabilities = [1, 0, 0, 0] ∧
    probsList 2 (simulate h1C) = [1/2, 0, 1/2, 0] ∧
    ([1, 0, 0, 0] : List ℝ) ≠ [1/2, 0, 1/2, 0] := by
  have hcl : classify unmatchedCode = "default" := by decide
  refine ⟨hcl, ?_, ?_, ?_, ?_⟩
  · rfl
  · simp [simulate_route, hcl, simulate_simple_circuit]
  · simp [probsList, List.range_succ, simulate, h1C, applyOp, groundState, Hmat,
      Nat.testBit_to_div_mod, Complex.normSq_ofReal, r2_mul_r2]
  · intro h
    have h0 := List.head_eq_of_cons_eq h
    norm_num at h0

/-- C6 (amended): every result of the fallback simulator carries
`success = true` — it has no failure path — and any circuit type outside the
four recognized patterns is answered with the fixed ground-state probabilities
`[1, 0, 0, 0]` rather than a structured failure. -/
theorem C6_fallback_never_fails (ct : String) (nq : ℕ) :
    (simulate_simple_circuit ct nq).success = true ∧
    (ct ≠ "bell_state" → ct ≠ "ghz_state" → ct ≠ "superposition" → ct ≠ "x_gate" →
      (simulate_simple_circuit ct nq).probabilities = [1, 0, 0, 0]) := by
  refine ⟨rfl, ?_⟩
  intro h1 h2 h3 h4
  simp [simulate_simple_circuit, h1, h2, h3, h4]

/-- Witness for the amended C6 at the unmatched circuit type. -/
theorem C6_witness :
    (simulate_simple_circuit "default" 2).success = true ∧
    (simulate_simple_circuit "default" 2).probabilities = [1, 0, 0, 0] :=
  ⟨(C6_fallback_never_fails "default" 2).1,
   (C6_fallback_never_fails "default" 2).2 (by decide) (by decide) (by decide) (by decide)⟩

/-- C8: for every qubit count, simulating an empty operation list leaves the
statevector equal to the ground state (amplitude 1 at index 0, 0 elsewhere);
the fallback default branch likewise returns the 2-qubit ground statevector. -/
theorem C8_identity_law (n : ℕ) :
    simulate ⟨n, []⟩ 0 = 1 ∧
    (∀ k, k ≠ 0 → simulate ⟨n, []⟩ k = 0) ∧
    (∀ nq, (simulate_simple_circuit "default" nq).statevector
        = ((1 : ℝ), (0 : ℝ)) :: List.replicate 3 ((0 : ℝ), (0 : ℝ)) ∧
      (simulate_simple_circuit "default" nq).num_qubits = 2) := by
  refine ⟨rfl, ?_, ?_⟩
  · intro k hk
    simp [simulate, groundState, hk]
  · intro nq
    constructor
    · simp [simulate_simple_circuit]
    · rfl

/-- Witness for C8 at five qubits. -/
theorem C8_witness : simulate ⟨5, []⟩ 0 = 1 ∧ simulate ⟨5, []⟩ 3 = 0 :=
  ⟨(C8_identity_law 5).1, (C8_identity_law 5).2.1 3 (by decide)⟩

/-- C9: a request string matching none of the classifier patterns is classified
`default` and answered with the fixed 2-qubit ground-state result — statevector
`[[1,0],[0,0],[0,0],[0,0]]`, probabilities `[1,0,0,0]`, marginals `(1, 0)` for
both qubits, depth 2 and size 2 — regardless of the circuit the string
describes. -/
theorem C9_default_fixed_result (code : List Char) (nq : ℕ)
    (h1 : patGhz (code.map Char.toLower) = false)
    (h2 : patBell (code.map Char.toLower) = false)
    (h3 : patSup (code.map Char.toLower) = false)
    (h4 : patX (code.map Char.toLower) = false) :
    classify code = "default" ∧
    simulate_simple_circuit (classify code) nq
      = ⟨true, [(1, 0), (0, 0), (0, 0), (0, 0)], 2, [1, 0, 0, 0],
         [⟨0, 1, 0⟩, ⟨1, 1, 0⟩], 2, 2⟩ := by
  have hcl : classify code = "default" := by
    simp [classify, h1, h2, h3, h4]
  refine ⟨hcl, ?_⟩
  rw [hcl]
  simp [simulate_simple_circuit, List.range_succ, SimResult.mk.injEq]
  norm_num

/-- Witness for C9 at the concrete unmatched request string. -/
theorem C9_witness :
    classify unmatchedCode = "default" ∧
    simulate_simple_circuit (classify unmatchedCode) 2
      = ⟨true, [(1, 0), (0, 0), (0, 0), (0, 0)], 2, [1, 0, 0, 0],
         [⟨0, 1, 0⟩, ⟨1, 1, 0⟩], 2, 2⟩ :=
  C9_default_fixed_result unmatchedCode 2 (by decide) (by decide) (by decide) (by decide)

/-- C10: the `num_qubits` argument of the fallback simulator has no influence on
its result — every branch overwrites it with a constant. -/
theorem C10_num_qubits_ignored (ct : String) (a b : ℕ) :
    simulate_simple_circuit ct a = simulate_simple_circuit ct b := rfl

/-- An operation that references an out-of-range index or has control equal to
target is caught by the per-operation validation check. -/
lemma firstViolation_isSome {n : ℕ} {op : Op}
    (h : op.RefsOutOfRange n ∨ op.CtrlEqTgt) : op.firstViolation n ≠ none := by
  cases op with
  | single U q =>
      rcases h with ⟨x, hx, hle⟩ | hf
      · simp only [Op.touches, List.mem_singleton] at hx
        subst hx
        simp [Op.firstViolation, hle]
      · exact hf.elim
  | controlled U c t =>
      simp only [Op.firstViolation]
      rcases h with ⟨x, hx, hle⟩ | hct
      · simp only [Op.touches, List.mem_cons, List.mem_singleton, List.not_mem_nil,
          or_false] at hx
        rcases hx with rfl | rfl
        · rw [if_pos (Or.inl hle)]; simp
        · rw [if_pos (Or.inr hle)]; simp
      · simp only [Op.CtrlEqTgt] at hct
        split_ifs <;> simp_all
  | cphase θ c t =>
      simp only [Op.firstViolation]
      rcases h with ⟨x, hx, hle⟩ | hct
      · simp only [Op.touches, List.mem_cons, List.mem_singleton, List.not_mem_nil,
          or_false] at hx
        rcases hx with rfl | rfl
        · rw [if_pos (Or.inl hle)]; simp
        · rw [if_pos (Or.inr hle)]; simp
      · simp only [Op.CtrlEqTgt] at hct
        split_ifs <;> simp_all
  | swap a b =>
      rcases h with ⟨x, hx, hle⟩ | hf
      · simp only [Op.touches, List.mem_cons, List.mem_singleton, List.not_mem_nil,
          or_false] at hx
        simp only [Op.firstViolation]
        rcases hx with rfl | rfl
        · rw [if_pos (Or.inl hle)]; simp
        · rw [if_pos (Or.inr hle)]; simp
      · exact hf.elim

/-- If some operation of the list violates a constraint, the scan reports a
failure, whatever the starting position. -/
lemma findViolation_isSome {n : ℕ} {ops : List Op}
    (h : ∃ op ∈ ops, op.RefsOutOfRange n ∨ op.CtrlEqTgt) :
    ∀ i, findViolation n ops i ≠ none := by
  induction ops with
  | nil =>
      rcases h with ⟨op, hmem, _⟩
      exact absurd hmem (List.not_mem_nil op)
  | cons op rest ih =>
      intro i
      unfold findViolation
      rcases h with ⟨o, ho, hviol⟩
      rcases List.mem_cons.1 ho with rfl | hrest
      · cases hfv : o.firstViolation n with
        | none => exact absurd hfv (firstViolation_isSome hviol)
        | some k => simp
      · cases hfv : op.firstViolation n with
        | some k => simp
        | none => exact ih ⟨o, hrest, hviol⟩ (i + 1)

/-- Every failure the scan reports names an operation position and one of the
two per-operation constraints. -/
lemma findViolation_shape {n : ℕ} {ops : List Op} :
    ∀ i f, findViolation n ops i = some f →
      (∃ j, f.opIndex = some j) ∧
      (f.constraint = .indexOutOfRange ∨ f.constraint = .controlEqualsTarget) := by
  induction ops with
  | nil => intro i f h; simp [findViolation] at h
  | cons op rest ih =>
      intro i f h
      unfold findViolation at h
      cases hfv : op.firstViolation n with
      | some k =>
          rw [hfv] at h
          cases h
          refine ⟨⟨i, rfl⟩, ?_⟩
          cases op
          all_goals (simp only [Op.firstViolation] at hfv; split_ifs at hfv <;> simp_all)
      | none =>
          rw [hfv] at h
          exact ih (i + 1) f h

/-- C7: a circuit referencing a qubit index at or beyond its declared count, or
containing a controlled gate with control equal to target, is rejected by
validation with a failure naming the offending operation and the violated
constraint, and the pipeline returns only that failure — the engine is never
run and no statevector output is produced. -/
theorem C7_validation_rejects (maxQubits maxOps n : ℕ) (ops : List Op)
    (hn : n ≠ 0) (hmax : n ≤ maxQubits) (hlen : ops.length ≤ maxOps)
    (hbad : ∃ op ∈ ops, op.RefsOutOfRange n ∨ op.CtrlEqTgt) :
    ∃ f : ValidationFailure,
      runSimulation maxQubits maxOps n ops = .error f ∧
      (∃ j, f.opIndex = some j) ∧
      (f.constraint = .indexOutOfRange ∨ f.constraint = .controlEqualsTarget) := by
  unfold runSimulation validate
  rw [if_neg (by push_neg; exact ⟨hn, hmax⟩), if_neg (not_lt.2 hlen)]
  cases hfv : findViolation n ops 0 with
  | none => exact absurd hfv (findViolation_isSome hbad 0)
  | some f => exact ⟨f, by simp, findViolation_shape 0 f hfv⟩

/-- Witness for C7 at a single-qubit gate on qubit 5 of a 2-qubit circuit. -/
theorem C7_witness :
    ∃ f : ValidationFailure,
      runSimulation 24 100 2 [Op.single Xmat 5] = .error f ∧
      (∃ j, f.opIndex = some j) ∧
      (f.constraint = .indexOutOfRange ∨ f.constraint = .controlEqualsTarget) :=
  C7_validation_rejects 24 100 2 [Op.single Xmat 5] (by decide) (by decide) (by decide)
    ⟨Op.single Xmat 5, by simp, Or.inl ⟨5, by simp [Op.touches], by norm_num⟩⟩
